import Mathlib

/-!
Formal model of the resumable batch-processing core of the
LrC-classification repository:

* `progress_tracker.py` — `ProgressTracker` (durable progress store):
  `_get_file_key`, `_get_file_signature`, `is_processed`,
  `mark_processed`, `mark_failed`, `reset`, `_save`.
* `racing_tagger.py` — the per-item processing loop of `main`
  (the part that drives the tracker after each item completes).
* `sequence_stacking.py` — `generate_sequence_id`,
  `SequenceDetector.detect_sequences`, `SequenceDetector._create_sequence`,
  `SharpnessScorer.score_sequence`.

Modelling conventions: Python dicts keyed by strings become functions
`String → Option _`; the JSON progress file on disk becomes an
`Option ProgressData` cell; file-system `stat` is a function
`ImagePath → Option FileStat` (`none` models `OSError`); `float`
times and sharpness scores become `ℚ`; `datetime` capture instants are
`ℚ` seconds where only their arithmetic matters, and a calendar
record `PyDateTime` where their rendering matters
(`generate_sequence_id`).  Python's `str(n)` for naturals is modelled
by `natDigits`, and `sorted(key = timestamp)` by a stable insertion
sort.
-/

/-- A file-system path: directory part plus file name.
`ProgressTracker._get_file_key` uses only the `name` component
(`image_path.name`), so the two parts are kept separate. -/
structure ImagePath where
  dir : String
  name : String
deriving DecidableEq

/-- Result of `os.stat` on a file: size in bytes and modification time
(modelled as a natural number of nanoseconds). -/
structure FileStat where
  size : Nat
  mtime : Nat
deriving DecidableEq

/-- The file system seen through `stat`: `none` models an `OSError`. -/
def FileSys : Type := ImagePath → Option FileStat

/-- The decimal digit character of `k % 10`, as produced by Python's
`str` on a natural number. -/
def decChar (k : Nat) : Char := Char.ofNat (48 + k % 10)

/-- Fuel-driven digit list of `str(n)`: most significant digit first. -/
def natDigitsAux : Nat → Nat → List Char
  | 0, _ => []
  | fuel + 1, n =>
    if n < 10 then [decChar n] else natDigitsAux fuel (n / 10) ++ [decChar (n % 10)]

/-- Digit list of Python's `str(n)` for a natural number `n`. -/
def natDigits (n : Nat) : List Char := natDigitsAux (n + 1) n

/-- The f-string `f"{stat.st_size}:{stat.st_mtime}"` of
`ProgressTracker._get_file_signature`. -/
def sigString (size mtime : Nat) : String :=
  String.mk (natDigits size ++ ':' :: natDigits mtime)

/-- `ProgressTracker._get_file_signature`: `"size:mtime"` from `stat`,
or `""` when `stat` raises `OSError`. -/
def get_file_signature (fs : FileSys) (p : ImagePath) : String :=
  match fs p with
  | some st => sigString st.size st.mtime
  | none => ""

/-- `ProgressTracker._get_file_key`: the filename, not the full path. -/
def get_file_key (p : ImagePath) : String := p.name

/-- `str(image_path)` (only its structure matters here). -/
def pathStr (p : ImagePath) : String := p.dir ++ "/" ++ p.name

/-- A record of `self.data['processed'][key]` (the `processed_at` and
`metadata` fields carry no information the claims touch and are
omitted). -/
structure ProcessedEntry where
  path : String
  signature : String
  keywords : List String
  inference_time : ℚ
deriving DecidableEq

/-- A record of `self.data['failed'][key]` (the `failed_at` field is
omitted for the same reason). -/
structure FailedEntry where
  path : String
  error : String
  attempts : Int
deriving DecidableEq

/-- The in-memory aggregate `self.data`: the two keyed collections and
the `stats` counters. -/
structure ProgressData where
  processed : String → Option ProcessedEntry
  failed : String → Option FailedEntry
  total_processed : Int
  total_failed : Int
  total_time : ℚ

/-- The fresh aggregate built by `_load` when no progress file exists. -/
def freshData : ProgressData :=
  { processed := fun _ => none
    failed := fun _ => none
    total_processed := 0
    total_failed := 0
    total_time := 0 }

/-- `self.data['failed'].get(key, {}).get('attempts', 0)`. -/
def attemptsOf (st : ProgressData) (key : String) : Int :=
  match st.failed key with
  | some e => e.attempts
  | none => 0

/-- The processed record written by `mark_processed`. -/
def processedEntry (fs : FileSys) (p : ImagePath) (kw : List String) (t : ℚ) :
    ProcessedEntry :=
  { path := pathStr p
    signature := get_file_signature fs p
    keywords := kw
    inference_time := t }

/-- The failed record written by `mark_failed` on state `st`. -/
def failedEntry (st : ProgressData) (p : ImagePath) (e : String) : FailedEntry :=
  { path := pathStr p
    error := e
    attempts := attemptsOf st (get_file_key p) + 1 }

/-- `ProgressTracker.mark_processed` (in-memory part, before `_save`):
upsert the processed record, bump `total_processed` and `total_time`,
and if the key had a failed record, delete it and decrement
`total_failed` by one. -/
def ProgressData.mark_processed (st : ProgressData) (fs : FileSys) (p : ImagePath)
    (kw : List String) (t : ℚ) : ProgressData :=
  let key := get_file_key p
  let d1 : ProgressData :=
    { st with
      processed := fun k => if k = key then some (processedEntry fs p kw t) else st.processed k
      total_processed := st.total_processed + 1
      total_time := st.total_time + t }
  if (d1.failed key).isSome then
    { d1 with
      failed := fun k => if k = key then none else d1.failed k
      total_failed := d1.total_failed - 1 }
  else d1

/-- `ProgressTracker.mark_failed` (in-memory part, before `_save`):
upsert the failed record with `attempts` incremented, and bump
`total_failed`.  Note: it does not touch the `processed` collection. -/
def ProgressData.mark_failed (st : ProgressData) (p : ImagePath) (e : String) :
    ProgressData :=
  let key := get_file_key p
  { st with
    failed := fun k => if k = key then some (failedEntry st p e) else st.failed k
    total_failed := st.total_failed + 1 }

/-- `ProgressTracker.is_processed`. -/
def ProgressData.is_processed (st : ProgressData) (fs : FileSys) (p : ImagePath)
    (check_signature : Bool) : Bool :=
  match st.processed (get_file_key p) with
  | none => false
  | some entry =>
    if check_signature then
      if entry.signature ≠ get_file_signature fs p then false else true
    else true

/-- A `ProgressTracker` instance plus the JSON file it writes: `disk`
is the last successfully written aggregate (`none`: no file yet). -/
structure TrackerWorld where
  data : ProgressData
  disk : Option ProgressData

/-- `ProgressTracker._save`: dump the full aggregate to the file.  An
`IOError` from the write (`ok = false`) is caught and only logged, so
the call returns either way. -/
def saveWorld (ok : Bool) (w : TrackerWorld) : TrackerWorld :=
  if ok then { w with disk := some w.data } else w

/-- `mark_processed` as observed through the file: mutate, then `_save`. -/
def mark_processed_op (fs : FileSys) (ok : Bool) (w : TrackerWorld) (p : ImagePath)
    (kw : List String) (t : ℚ) : TrackerWorld :=
  saveWorld ok { w with data := w.data.mark_processed fs p kw t }

/-- `mark_failed` as observed through the file: mutate, then `_save`. -/
def mark_failed_op (ok : Bool) (w : TrackerWorld) (p : ImagePath) (e : String) :
    TrackerWorld :=
  saveWorld ok { w with data := w.data.mark_failed p e }

/-- `ProgressTracker.reset`: reinitialize the aggregate, then `_save`. -/
def reset_op (ok : Bool) (w : TrackerWorld) : TrackerWorld :=
  saveWorld ok { w with data := freshData }

/-- The per-item result dict built by `process_single_image` /
`process_with_encoded_image` (only the fields the loop reads). -/
structure ItemResult where
  success : Bool
  keywords : List String
  error : String
deriving DecidableEq

/-- One iteration of the processing loop in `racing_tagger.main`: on
`result['success']` it calls `tracker.mark_processed(image_path,
result['keywords'])`; otherwise it only bumps the local `failed`
counter and logs — no tracker call. -/
def loopStep (fs : FileSys) (w : TrackerWorld) (it : ImagePath × ItemResult) :
    TrackerWorld :=
  if it.2.success then mark_processed_op fs true w it.1 it.2.keywords 0 else w

/-- The processing loop of `racing_tagger.main` over the per-item
results, as it drives the tracker. -/
def runLoop (fs : FileSys) (w : TrackerWorld) (items : List (ImagePath × ItemResult)) :
    TrackerWorld :=
  items.foldl (loopStep fs) w

/-! Basic facts about the modelled operations. -/

theorem mark_processed_processed (st : ProgressData) (fs : FileSys) (p : ImagePath)
    (kw : List String) (t : ℚ) (k : String) :
    (st.mark_processed fs p kw t).processed k =
      if k = get_file_key p then some (processedEntry fs p kw t) else st.processed k := by
  unfold ProgressData.mark_processed
  dsimp only
  split <;> rfl

theorem mark_processed_failed (st : ProgressData) (fs : FileSys) (p : ImagePath)
    (kw : List String) (t : ℚ) (k : String) :
    (st.mark_processed fs p kw t).failed k =
      if k = get_file_key p then none else st.failed k := by
  unfold ProgressData.mark_processed
  dsimp only
  split
  · rfl
  · rename_i h
    by_cases hk : k = get_file_key p
    · subst hk
      simp only [if_pos rfl]
      exact Option.not_isSome_iff_eq_none.1 (by simpa using h)
    · simp [hk]

theorem mark_processed_total_failed (st : ProgressData) (fs : FileSys) (p : ImagePath)
    (kw : List String) (t : ℚ) :
    (st.mark_processed fs p kw t).total_failed =
      if (st.failed (get_file_key p)).isSome = true then st.total_failed - 1
      else st.total_failed := by
  unfold ProgressData.mark_processed
  dsimp only
  split <;> rename_i h <;> simp_all

theorem mark_failed_processed (st : ProgressData) (p : ImagePath) (e : String) (k : String) :
    (st.mark_failed p e).processed k = st.processed k := rfl

theorem mark_failed_failed (st : ProgressData) (p : ImagePath) (e : String) (k : String) :
    (st.mark_failed p e).failed k =
      if k = get_file_key p then some (failedEntry st p e) else st.failed k := rfl

theorem mark_failed_total_failed (st : ProgressData) (p : ImagePath) (e : String) :
    (st.mark_failed p e).total_failed = st.total_failed + 1 := rfl

theorem attemptsOf_mark_failed (st : ProgressData) (p : ImagePath) (e : String) :
    attemptsOf (st.mark_failed p e) (get_file_key p) =
      attemptsOf st (get_file_key p) + 1 := by
  unfold attemptsOf
  rw [mark_failed_failed, if_pos rfl]
  rfl

/-! Decimal rendering: Python's `str` on naturals, injectivity of the
signature string. -/

theorem decChar_ne_colon (k : Nat) : decChar k ≠ ':' := by
  have h : k % 10 < 10 := Nat.mod_lt _ (by norm_num)
  have hall : ∀ m, m < 10 → Char.ofNat (48 + m) ≠ ':' := by decide
  exact hall (k % 10) h

theorem colon_not_mem_natDigitsAux : ∀ fuel n, ':' ∉ natDigitsAux fuel n := by
  intro fuel
  induction fuel with
  | zero => intro n; simp [natDigitsAux]
  | succ f ih =>
    intro n
    unfold natDigitsAux
    split
    · intro h
      rw [List.mem_singleton] at h
      exact decChar_ne_colon n h.symm
    · intro h
      rcases List.mem_append.1 h with h | h
      · exact ih _ h
      · rw [List.mem_singleton] at h
        exact decChar_ne_colon (n % 10) h.symm

/-- Value of a digit character. -/
def digitVal (c : Char) : Nat := c.toNat - 48

/-- Numeric value of a digit list (most significant first). -/
def valOfDigits (l : List Char) : Nat := l.foldl (fun a c => 10 * a + digitVal c) 0

theorem digitVal_decChar (k : Nat) : digitVal (decChar k) = k % 10 := by
  have h : k % 10 < 10 := Nat.mod_lt _ (by norm_num)
  have hall : ∀ m, m < 10 → digitVal (Char.ofNat (48 + m)) = m := by decide
  exact hall (k % 10) h

theorem valOf_natDigitsAux : ∀ fuel n, n < fuel → valOfDigits (natDigitsAux fuel n) = n := by
  intro fuel
  induction fuel with
  | zero => intro n h; omega
  | succ f ih =>
    intro n h
    unfold natDigitsAux
    split
    · rename_i h10
      show valOfDigits [decChar n] = n
      simp [valOfDigits, List.foldl, digitVal_decChar]
      omega
    · rename_i h10
      push_neg at h10
      have hpos : 0 < n := by omega
      have hdiv : n / 10 < f := by
        have hlt := Nat.div_lt_self hpos (by norm_num : 1 < 10)
        omega
      show valOfDigits (natDigitsAux f (n / 10) ++ [decChar (n % 10)]) = n
      unfold valOfDigits
      rw [List.foldl_append]
      have hv := ih (n / 10) hdiv
      unfold valOfDigits at hv
      rw [hv]
      simp [List.foldl, digitVal_decChar]
      omega

theorem natDigits_inj {m n : Nat} (h : natDigits m = natDigits n) : m = n := by
  have hm := valOf_natDigitsAux (m + 1) m (Nat.lt_succ_self m)
  have hn := valOf_natDigitsAux (n + 1) n (Nat.lt_succ_self n)
  unfold natDigits at h
  rw [← hm, ← hn, h]

theorem append_colon_inj : ∀ (l1 l2 r1 r2 : List Char), ':' ∉ l1 → ':' ∉ l2 →
    l1 ++ ':' :: r1 = l2 ++ ':' :: r2 → l1 = l2 ∧ r1 = r2 := by
  intro l1
  induction l1 with
  | nil =>
    intro l2 r1 r2 _ h2 heq
    cases l2 with
    | nil => simpa using heq
    | cons c t2 =>
      injection heq with hc htl
      exact absurd (hc ▸ List.mem_cons_self c t2) h2
  | cons c t ih =>
    intro l2 r1 r2 h1 h2 heq
    cases l2 with
    | nil =>
      injection heq with hc htl
      exact absurd (hc ▸ List.mem_cons_self c t) h1
    | cons d t2 =>
      injection heq with hcd htl
      subst hcd
      obtain ⟨ha, hb⟩ := ih t2 r1 r2 (fun hm => h1 (List.mem_cons_of_mem _ hm))
        (fun hm => h2 (List.mem_cons_of_mem _ hm)) htl
      exact ⟨by rw [ha], hb⟩

theorem sigString_inj {a b c d : Nat} (h : sigString a b = sigString c d) :
    a = c ∧ b = d := by
  unfold sigString at h
  injection h with h
  obtain ⟨h1, h2⟩ := append_colon_inj _ _ _ _
    (colon_not_mem_natDigitsAux (a + 1) a) (colon_not_mem_natDigitsAux (c + 1) c) h
  exact ⟨natDigits_inj h1, natDigits_inj h2⟩

/-! Helper facts about the processing loop. -/

theorem runLoop_nil (fs : FileSys) (w : TrackerWorld) : runLoop fs w [] = w := rfl

theorem runLoop_cons (fs : FileSys) (w : TrackerWorld) (it : ImagePath × ItemResult)
    (rest : List (ImagePath × ItemResult)) :
    runLoop fs w (it :: rest) = runLoop fs (loopStep fs w it) rest := rfl

theorem mark_processed_op_data (fs : FileSys) (w : TrackerWorld) (p : ImagePath)
    (kw : List String) (t : ℚ) :
    (mark_processed_op fs true w p kw t).data = w.data.mark_processed fs p kw t := rfl

theorem mark_processed_op_disk (fs : FileSys) (w : TrackerWorld) (p : ImagePath)
    (kw : List String) (t : ℚ) :
    (mark_processed_op fs true w p kw t).disk = some (w.data.mark_processed fs p kw t) := rfl

theorem runLoop_processed_mono (fs : FileSys) :
    ∀ (items : List (ImagePath × ItemResult)) (w : TrackerWorld) (k : String),
    (w.data.processed k).isSome = true →
    ((runLoop fs w items).data.processed k).isSome = true := by
  intro items
  induction items with
  | nil => intro w k h; exact h
  | cons it rest ih =>
    intro w k h
    rw [runLoop_cons]
    apply ih
    unfold loopStep
    split
    · rw [mark_processed_op_data, mark_processed_processed]
      by_cases hk : k = get_file_key it.1 <;> simp [hk, h]
    · exact h

theorem runLoop_failed_no_new (fs : FileSys) :
    ∀ (items : List (ImagePath × ItemResult)) (w : TrackerWorld) (k : String),
    ((runLoop fs w items).data.failed k).isSome = true →
    (runLoop fs w items).data.failed k = w.data.failed k := by
  intro items
  induction items with
  | nil => intro w k _; rfl
  | cons it rest ih =>
    intro w k h
    rw [runLoop_cons] at h ⊢
    have h2 := ih (loopStep fs w it) k h
    rw [h2] at h ⊢
    by_cases hs : it.2.success = true
    · have hstep : loopStep fs w it = mark_processed_op fs true w it.1 it.2.keywords 0 := by
        unfold loopStep
        rw [if_pos hs]
      rw [hstep, mark_processed_op_data, mark_processed_failed] at h ⊢
      by_cases hk : k = get_file_key it.1
      · rw [if_pos hk] at h; simp at h
      · rw [if_neg hk]
    · have hstep : loopStep fs w it = w := by
        unfold loopStep
        rw [if_neg hs]
      rw [hstep]

theorem runLoop_disk_sync (fs : FileSys) :
    ∀ (items : List (ImagePath × ItemResult)) (w : TrackerWorld),
    (runLoop fs w items).disk = some (runLoop fs w items).data ∨
    ((runLoop fs w items).disk = w.disk ∧ (runLoop fs w items).data = w.data) := by
  intro items
  induction items with
  | nil => intro w; exact Or.inr ⟨rfl, rfl⟩
  | cons it rest ih =>
    intro w
    rw [runLoop_cons]
    by_cases hs : it.2.success = true
    · have hstep : (loopStep fs w it).disk = some (loopStep fs w it).data := by
        unfold loopStep
        rw [if_pos hs]
        rfl
      rcases ih (loopStep fs w it) with h | ⟨h1, h2⟩
      · exact Or.inl h
      · exact Or.inl (by rw [h1, h2, hstep])
    · have hstep : loopStep fs w it = w := by
        unfold loopStep
        rw [if_neg hs]
      rw [hstep]
      exact ih w

theorem runLoop_success_key (fs : FileSys) :
    ∀ (items : List (ImagePath × ItemResult)) (w : TrackerWorld)
    (it : ImagePath × ItemResult), it ∈ items → it.2.success = true →
    ((runLoop fs w items).data.processed (get_file_key it.1)).isSome = true := by
  intro items
  induction items with
  | nil => intro w it h; exact absurd h (List.not_mem_nil it)
  | cons jt rest ih =>
    intro w it hmem hsucc
    rw [runLoop_cons]
    rcases List.mem_cons.1 hmem with heq | hmem2
    · subst heq
      apply runLoop_processed_mono
      unfold loopStep
      rw [if_pos hsucc, mark_processed_op_data, mark_processed_processed, if_pos rfl]
      rfl
    · exact ih (loopStep fs w jt) _ hmem2 hsucc

/-! Concrete objects used by witnesses and counterexamples. -/

def fs0 : FileSys := fun _ => some ⟨1000, 5⟩

def fs1 : FileSys := fun _ => some ⟨1000, 6⟩

def p0 : ImagePath := ⟨"photos", "img1.jpg"⟩

def failResult : ItemResult := { success := false, keywords := [], error := "inference failed" }

def okResult : ItemResult := { success := true, keywords := ["car"], error := "" }

/-! Claim C1. -/

/-- C1, counterexample: running the batch loop of `racing_tagger.main`
on a single item whose result is a failure leaves the tracker world
completely unchanged — no `mark_failed` call happens, so the item's
terminal state is NOT reflected in the durable store (second conjunct
shows what an actual `mark_failed` would have recorded). -/
theorem loop_failure_no_durable_update :
    runLoop fs0 ⟨freshData, none⟩ [(p0, failResult)] = ⟨freshData, none⟩ ∧
    ((freshData.mark_failed p0 failResult.error).failed "img1.jpg").isSome = true :=
  ⟨rfl, rfl⟩

/-- C1 (amended): in the processing loop of `racing_tagger.main`, every
item that completes successfully triggers `mark_processed` before the
loop continues (its key is durably recorded as processed by the end of
the run, and the on-disk aggregate tracks the in-memory one), but a
failed item triggers NO `ProgressStore` update at all: the failed
collection never gains an entry during the loop — failures are only
counted in an in-memory counter and logged. -/
theorem loop_marks_successes_only (fs : FileSys) (w : TrackerWorld)
    (items : List (ImagePath × ItemResult)) :
    (∀ it ∈ items, it.2.success = true →
      ((runLoop fs w items).data.processed (get_file_key it.1)).isSome = true) ∧
    (∀ k, ((runLoop fs w items).data.failed k).isSome = true →
      (runLoop fs w items).data.failed k = w.data.failed k) ∧
    ((runLoop fs w items).disk = some (runLoop fs w items).data ∨
      ((runLoop fs w items).disk = w.disk ∧ (runLoop fs w items).data = w.data)) :=
  ⟨fun it hmem hs => runLoop_success_key fs items w it hmem hs,
   fun k h => runLoop_failed_no_new fs items w k h,
   runLoop_disk_sync fs items w⟩

/-- C1 witness: the amended theorem applied to a one-item successful
batch from the empty store. -/
theorem loop_marks_successes_only_witness :
    ((p0, okResult) ∈ [(p0, okResult)] ∧ okResult.success = true) ∧
    ((runLoop fs0 ⟨freshData, none⟩ [(p0, okResult)]).data.processed
      (get_file_key p0)).isSome = true :=
  ⟨⟨List.mem_singleton_self _, rfl⟩,
   (loop_marks_successes_only fs0 ⟨freshData, none⟩ [(p0, okResult)]).1
     (p0, okResult) (List.mem_singleton_self _) rfl⟩

/-! Claim C2. -/

/-- C2, counterexample: from the empty store, `mark_processed` on
`img1.jpg` followed by `mark_failed` on the same key leaves the key
recorded in BOTH collections: `mark_failed` does not clear a prior
processed record, so the claimed at-most-one-of invariant fails after
the operation sequence `mark_processed; mark_failed`. -/
theorem processed_and_failed_simultaneously :
    ((((freshData.mark_processed fs0 p0 ["kw"] 0).mark_failed p0 "boom").processed
      "img1.jpg").isSome = true) ∧
    ((((freshData.mark_processed fs0 p0 ["kw"] 0).mark_failed p0 "boom").failed
      "img1.jpg").isSome = true) := by
  constructor <;> rfl

/-- The at-most-one-of invariant on a progress aggregate: no key is
simultaneously recorded as processed and as failed. -/
def ExclusiveInv (st : ProgressData) : Prop :=
  ∀ k, ¬((st.processed k).isSome = true ∧ (st.failed k).isSome = true)

/-- C2 (amended): `mark_processed` always preserves (and for its own key
restores) the at-most-one-of invariant — it removes any prior failed
entry for the key — while `mark_failed` preserves it only when its key
is not currently recorded as processed; in general `mark_failed` can
put a key in both collections (see the counterexample). -/
theorem mark_ops_exclusivity (st : ProgressData) (fs : FileSys) (p : ImagePath)
    (kw : List String) (t : ℚ) (e : String) (hinv : ExclusiveInv st) :
    ExclusiveInv (st.mark_processed fs p kw t) ∧
    (st.processed (get_file_key p) = none → ExclusiveInv (st.mark_failed p e)) := by
  constructor
  · intro k hk
    rw [mark_processed_processed, mark_processed_failed] at hk
    by_cases h : k = get_file_key p
    · simp [h] at hk
    · simp only [if_neg h] at hk
      exact hinv k hk
  · intro hnone k hk
    rw [mark_failed_processed, mark_failed_failed] at hk
    by_cases h : k = get_file_key p
    · rw [h, hnone] at hk
      simp at hk
    · rw [if_neg h] at hk
      exact hinv k hk

/-- C2 witness: the amended theorem applied to the empty store. -/
theorem mark_ops_exclusivity_witness :
    ExclusiveInv freshData ∧
    (ExclusiveInv (freshData.mark_processed fs0 p0 ["kw"] 0) ∧
      (freshData.processed (get_file_key p0) = none →
        ExclusiveInv (freshData.mark_failed p0 "boom"))) :=
  ⟨(fun _ h => nomatch h.1),
   mark_ops_exclusivity freshData fs0 p0 ["kw"] 0 "boom" (fun _ h => nomatch h.1)⟩

/-! Claim C3. -/

/-- `n` consecutive `mark_failed` calls for the same image with the
given error strings (the repeated-failure scenario of the claim). -/
def markFailedTimes (st : ProgressData) (p : ImagePath) (errs : List String) :
    ProgressData :=
  errs.foldl (fun s e => s.mark_failed p e) st

theorem markFailedTimes_total_failed :
    ∀ (errs : List String) (st : ProgressData) (p : ImagePath),
    (markFailedTimes st p errs).total_failed = st.total_failed + errs.length := by
  intro errs
  induction errs with
  | nil => intro st p; simp [markFailedTimes]
  | cons e t ih =>
    intro st p
    show (markFailedTimes (st.mark_failed p e) p t).total_failed = _
    rw [ih, mark_failed_total_failed]
    simp only [List.length_cons]
    push_cast
    ring

theorem markFailedTimes_attempts :
    ∀ (errs : List String) (st : ProgressData) (p : ImagePath),
    attemptsOf (markFailedTimes st p errs) (get_file_key p) =
      attemptsOf st (get_file_key p) + errs.length := by
  intro errs
  induction errs with
  | nil => intro st p; simp [markFailedTimes]
  | cons e t ih =>
    intro st p
    show attemptsOf (markFailedTimes (st.mark_failed p e) p t) _ = _
    rw [ih, attemptsOf_mark_failed]
    simp only [List.length_cons]
    push_cast
    ring

theorem markFailedTimes_failed_isSome :
    ∀ (errs : List String) (st : ProgressData) (p : ImagePath), errs ≠ [] →
    ((markFailedTimes st p errs).failed (get_file_key p)).isSome = true := by
  intro errs
  induction errs with
  | nil => intro st p h; exact absurd rfl h
  | cons e t ih =>
    intro st p _
    cases t with
    | nil =>
      show ((st.mark_failed p e).failed (get_file_key p)).isSome = true
      rw [mark_failed_failed, if_pos rfl]
      rfl
    | cons e2 t2 =>
      exact ih (st.mark_failed p e) p (List.cons_ne_nil e2 t2)

/-- C3, counterexample: two `mark_failed` calls for `img1.jpg` starting
from the empty store (pre-failure `total_failed = 0`, first conjunct)
followed by `mark_processed` leave `total_failed = 1`, not the
pre-failure value 0: the counter is decremented by exactly one no
matter how many failures were accumulated. -/
theorem failed_counter_not_restored :
    freshData.total_failed = 0 ∧
    (((freshData.mark_failed p0 "e1").mark_failed p0 "e2").mark_processed
      fs0 p0 [] 0).total_failed = 1 :=
  ⟨rfl, rfl⟩

/-- C3 (amended): after `n ≥ 1` `mark_failed` calls for a key followed
by `mark_processed` for the same key, the failed record is removed and
the attempts counter accumulated all `n` failures, but the cumulative
failed counter is decremented by exactly one: it ends at its
pre-failure value plus `n - 1`, equalling the pre-failure value only
when `n = 1`. -/
theorem mark_processed_after_failures (st : ProgressData) (fs : FileSys) (p : ImagePath)
    (kw : List String) (t : ℚ) (errs : List String) (hne : errs ≠ []) :
    ((markFailedTimes st p errs).mark_processed fs p kw t).failed (get_file_key p) = none ∧
    attemptsOf (markFailedTimes st p errs) (get_file_key p) =
      attemptsOf st (get_file_key p) + errs.length ∧
    ((markFailedTimes st p errs).mark_processed fs p kw t).total_failed =
      st.total_failed + errs.length - 1 := by
  refine ⟨?_, markFailedTimes_attempts errs st p, ?_⟩
  · rw [mark_processed_failed, if_pos rfl]
  · rw [mark_processed_total_failed,
      if_pos (markFailedTimes_failed_isSome errs st p hne),
      markFailedTimes_total_failed]

/-- C3 witness: the amended theorem applied to two failures from the
empty store. -/
theorem mark_processed_after_failures_witness :
    (["e1", "e2"] : List String) ≠ [] ∧
    (((markFailedTimes freshData p0 ["e1", "e2"]).mark_processed fs0 p0 [] 0).failed
        (get_file_key p0) = none ∧
      attemptsOf (markFailedTimes freshData p0 ["e1", "e2"]) (get_file_key p0) =
        attemptsOf freshData (get_file_key p0) + (["e1", "e2"] : List String).length ∧
      ((markFailedTimes freshData p0 ["e1", "e2"]).mark_processed fs0 p0 [] 0).total_failed =
        freshData.total_failed + (["e1", "e2"] : List String).length - 1) :=
  ⟨(by decide), mark_processed_after_failures freshData fs0 p0 [] 0 ["e1", "e2"] (by decide)⟩

/-! Claim C6. -/

/-- C6: `is_processed` with signature checking returns true exactly when
a processed record exists for the key whose stored signature equals the
currently computed one; hence `mark_processed` followed by
`is_processed` against the unchanged file returns true, and after the
file's size or modification time changes it returns false. -/
theorem is_processed_signature_spec (fs fs2 : FileSys) (st : ProgressData) (p : ImagePath)
    (kw : List String) (t : ℚ) :
    (st.is_processed fs p true = true ↔
      ∃ e, st.processed (get_file_key p) = some e ∧
        e.signature = get_file_signature fs p) ∧
    ((st.mark_processed fs p kw t).is_processed fs p true = true) ∧
    (∀ s1 s2 : FileStat, fs p = some s1 → fs2 p = some s2 →
      (s1.size ≠ s2.size ∨ s1.mtime ≠ s2.mtime) →
      (st.mark_processed fs p kw t).is_processed fs2 p true = false) := by
  refine ⟨?_, ?_, ?_⟩
  · unfold ProgressData.is_processed
    cases h : st.processed (get_file_key p) with
    | none => simp [h]
    | some e =>
      by_cases hsig : e.signature = get_file_signature fs p
      · simp [h, hsig]
      · simp [h, hsig]
  · unfold ProgressData.is_processed
    rw [mark_processed_processed, if_pos rfl]
    have hsig : (processedEntry fs p kw t).signature = get_file_signature fs p := rfl
    simp [hsig]
  · intro s1 s2 hs1 hs2 hchange
    unfold ProgressData.is_processed
    rw [mark_processed_processed, if_pos rfl]
    have hsig : (processedEntry fs p kw t).signature = get_file_signature fs p := rfl
    have hne : (processedEntry fs p kw t).signature ≠ get_file_signature fs2 p := by
      rw [hsig]
      unfold get_file_signature
      rw [hs1, hs2]
      intro heq
      obtain ⟨hsz, hmt⟩ := sigString_inj heq
      rcases hchange with hc | hc
      · exact hc hsz
      · exact hc hmt
    simp [hne]

/-- C6 witness: mark from the empty store under `fs0` (size 1000, mtime
5); re-checking under `fs0` yields true, re-checking under `fs1`
(size 1000, mtime 6 — the modification time changed) yields false. -/
theorem is_processed_signature_spec_witness :
    (fs0 p0 = some ⟨1000, 5⟩ ∧ fs1 p0 = some ⟨1000, 6⟩ ∧
      ((1000 : Nat) ≠ 1000 ∨ (5 : Nat) ≠ 6)) ∧
    (freshData.mark_processed fs0 p0 ["kw"] 0).is_processed fs0 p0 true = true ∧
    (freshData.mark_processed fs0 p0 ["kw"] 0).is_processed fs1 p0 true = false :=
  ⟨⟨rfl, rfl, Or.inr (by decide)⟩,
   (is_processed_signature_spec fs0 fs1 freshData p0 ["kw"] 0).2.1,
   (is_processed_signature_spec fs0 fs1 freshData p0 ["kw"] 0).2.2 ⟨1000, 5⟩ ⟨1000, 6⟩
     rfl rfl (Or.inr (by decide))⟩

/-! Claim C7. -/

/-- C7, counterexample: when the underlying write raises `IOError`
(`ok = false`), `_save` catches and merely logs it, so `mark_failed`
returns successfully with the mutation only in memory: the key is
recorded as failed in the in-memory aggregate while no progress file
exists on disk. -/
theorem save_failure_swallowed :
    (((mark_failed_op false ⟨freshData, none⟩ p0 "boom").data.failed
      "img1.jpg").isSome = true) ∧
    (mark_failed_op false ⟨freshData, none⟩ p0 "boom").disk = none :=
  ⟨rfl, rfl⟩

/-- C7 (amended): whenever the underlying file write succeeds, each
mutating call (`mark_processed`, `mark_failed`, `reset`) leaves the
on-disk file holding exactly the full updated in-memory aggregate —
nothing is buffered across calls; the stated invariant fails only when
the write itself raises `IOError`, which `_save` swallows (see the
counterexample). -/
theorem mutators_persist_on_write_success (fs : FileSys) (w : TrackerWorld) (p : ImagePath)
    (kw : List String) (t : ℚ) (e : String) :
    (mark_processed_op fs true w p kw t).disk = some (mark_processed_op fs true w p kw t).data ∧
    (mark_failed_op true w p e).disk = some (mark_failed_op true w p e).data ∧
    (reset_op true w).disk = some (reset_op true w).data :=
  ⟨rfl, rfl, rfl⟩

/-! Model of `sequence_stacking.py`: sequence detection.

A capture instant (Python `datetime`) is abstracted to rational
seconds on the time line: `(ts - prev_ts).total_seconds()` becomes
plain subtraction.  The input of `detect_sequences` is modelled as the
item list of the `timestamps` dict returned by
`read_timestamps_batch` (distinct image paths, each with its resolved
instant); images without a resolvable timestamp never appear in it. -/

/-- An image together with its resolved capture instant. -/
abbrev TimedImage := ImagePath × ℚ

/-- A detected sequence.  `sequence_id` — a rendering of the first
frame's calendar timestamp — is modelled separately on calendar
timestamps (`generate_sequence_id` below), since instants here are
abstract rational seconds. -/
structure Sequence where
  frames : List ImagePath
  timestamps : List ℚ
  sharpness_scores : List ℚ
  best_frame_idx : Nat
deriving DecidableEq

/-- `SequenceDetector._create_sequence`: split a group of
`(path, timestamp)` tuples into the parallel `frames` / `timestamps`
lists; scores empty, best index 0. -/
def create_sequence (group : List TimedImage) : Sequence :=
  { frames := group.map Prod.fst
    timestamps := group.map Prod.snd
    sharpness_scores := []
    best_frame_idx := 0 }

/-- Comparison used by `sorted(..., key = lambda x: x[1])`. -/
def tsLE (a b : TimedImage) : Prop := a.2 ≤ b.2

instance : DecidableRel tsLE := fun a b => inferInstanceAs (Decidable (a.2 ≤ b.2))

instance : IsTotal TimedImage tsLE := ⟨fun a b => le_total a.2 b.2⟩

instance : IsTrans TimedImage tsLE := ⟨fun _ _ _ h1 h2 => le_trans h1 h2⟩

/-- Python's stable `sorted` by timestamp, modelled by stable insertion
sort. -/
def sortPairs (l : List TimedImage) : List TimedImage := List.insertionSort tsLE l

/-- The grouping loop of `SequenceDetector.detect_sequences`: `cur` is
`current_group`; a group is emitted only when it has at least two
members, both on a larger-than-threshold gap and at the end of the
scan. -/
def detectGo (th : ℚ) : List TimedImage → List TimedImage → List (List TimedImage)
  | cur, [] => if 2 ≤ cur.length then [cur] else []
  | cur, x :: rest =>
    if cur = [] then detectGo th [x] rest
    else if x.2 - (cur.getLastD x).2 ≤ th then detectGo th (cur ++ [x]) rest
    else (if 2 ≤ cur.length then [cur] else []) ++ detectGo th [x] rest

/-- `SequenceDetector.detect_sequences` on resolved `(path, instant)`
pairs: sort by instant, run the grouping loop, materialize groups. -/
def detect_sequences (th : ℚ) (l : List TimedImage) : List Sequence :=
  (detectGo th [] (sortPairs l)).map create_sequence

/-- The same grouping loop, but emitting every maximal run (also the
singletons that `detect_sequences` discards); used to reason about the
loop. -/
def runsGo (th : ℚ) : List TimedImage → List TimedImage → List (List TimedImage)
  | cur, [] => [cur]
  | cur, x :: rest =>
    if x.2 - (cur.getLastD x).2 ≤ th then runsGo th (cur ++ [x]) rest
    else cur :: runsGo th [x] rest

/-- The gap condition that keeps `b` in the run after `a`. -/
def gapLE (th : ℚ) (a b : TimedImage) : Prop := b.2 - a.2 ≤ th

/-- All consecutive gaps inside a run are within the threshold. -/
def chainGap (th : ℚ) (r : List TimedImage) : Prop := r.Chain' (gapLE th)

/-- The gap across a run boundary exceeds the threshold. -/
def boundGap (th : ℚ) (r1 r2 : List TimedImage) : Prop :=
  ∀ a ∈ r1.getLast?, ∀ b ∈ r2.head?, th < b.2 - a.2

theorem getLast?_eq_getLastD {α : Type} (l : List α) (d : α) (h : l ≠ []) :
    l.getLast? = some (l.getLastD d) := by
  rw [List.getLastD_eq_getLast?]
  cases ht : l.getLast? with
  | none => exact absurd (List.getLast?_eq_none_iff.1 ht) h
  | some x => rfl

/-! Structural facts about the grouping loop. -/

theorem runsGo_join (th : ℚ) :
    ∀ (l cur : List TimedImage), (runsGo th cur l).flatten = cur ++ l := by
  intro l
  induction l with
  | nil => intro cur; simp [runsGo]
  | cons x rest ih =>
    intro cur
    unfold runsGo
    split
    · rw [ih]
      simp
    · rw [List.flatten_cons, ih]
      simp

theorem runsGo_ne_nil (th : ℚ) :
    ∀ (l cur : List TimedImage), cur ≠ [] → ∀ r ∈ runsGo th cur l, r ≠ [] := by
  intro l
  induction l with
  | nil =>
    intro cur hc r hr
    simp [runsGo] at hr
    exact hr ▸ hc
  | cons x rest ih =>
    intro cur hc r hr
    unfold runsGo at hr
    split at hr
    · exact ih (cur ++ [x]) (by simp) r hr
    · rcases List.mem_cons.1 hr with heq | hr2
      · exact heq ▸ hc
      · exact ih [x] (List.cons_ne_nil x []) r hr2

theorem runsGo_head_shape (th : ℚ) :
    ∀ (l cur : List TimedImage), ∃ t rs, runsGo th cur l = (cur ++ t) :: rs := by
  intro l
  induction l with
  | nil => intro cur; exact ⟨[], [], by simp [runsGo]⟩
  | cons x rest ih =>
    intro cur
    unfold runsGo
    split
    · obtain ⟨t, rs, h⟩ := ih (cur ++ [x])
      exact ⟨x :: t, rs, by rw [h]; simp⟩
    · exact ⟨[], runsGo th [x] rest, by simp⟩

theorem runsGo_chainGap (th : ℚ) :
    ∀ (l cur : List TimedImage), cur ≠ [] → chainGap th cur →
    ∀ r ∈ runsGo th cur l, chainGap th r := by
  intro l
  induction l with
  | nil =>
    intro cur _ hch r hr
    simp [runsGo] at hr
    exact hr ▸ hch
  | cons x rest ih =>
    intro cur hc hch r hr
    unfold runsGo at hr
    split at hr
    · rename_i hcond
      refine ih (cur ++ [x]) (by simp) ?_ r hr
      unfold chainGap
      rw [List.chain'_append]
      refine ⟨hch, List.chain'_singleton x, ?_⟩
      intro a ha y hy
      rw [getLast?_eq_getLastD cur x hc] at ha
      simp only [Option.mem_some_iff] at ha
      simp only [List.head?_cons, Option.mem_some_iff] at hy
      rw [← ha, ← hy]
      exact hcond
    · rcases List.mem_cons.1 hr with heq | hr2
      · exact heq ▸ hch
      · exact ih [x] (List.cons_ne_nil x []) (List.chain'_singleton x) r hr2

theorem runsGo_boundGap (th : ℚ) :
    ∀ (l cur : List TimedImage), cur ≠ [] → (runsGo th cur l).Chain' (boundGap th) := by
  intro l
  induction l with
  | nil => intro cur _; simp [runsGo]
  | cons x rest ih =>
    intro cur hc
    unfold runsGo
    split
    · exact ih (cur ++ [x]) (by simp)
    · rename_i hcond
      rw [List.chain'_cons']
      refine ⟨?_, ih [x] (List.cons_ne_nil x [])⟩
      intro r2 hr2
      obtain ⟨t, rs, hshape⟩ := runsGo_head_shape th rest [x]
      rw [hshape] at hr2
      simp at hr2
      intro a ha b hb
      rw [getLast?_eq_getLastD cur x hc] at ha
      simp only [Option.mem_some_iff] at ha
      rw [← hr2] at hb
      simp only [List.head?_cons, Option.mem_some_iff] at hb
      rw [← ha, ← hb]
      exact not_le.1 hcond

theorem append_adjacent {α : Type} :
    ∀ (xs u ys v : List α) (a b : α), xs ++ ys = u ++ a :: b :: v →
    (∃ w z, xs = w ++ a :: b :: z) ∨
    ((∃ w, xs = w ++ [a]) ∧ (∃ z, ys = b :: z)) ∨
    (∃ w z, ys = w ++ a :: b :: z) := by
  intro xs
  induction xs with
  | nil =>
    intro u ys v a b h
    rw [List.nil_append] at h
    exact Or.inr (Or.inr ⟨u, v, h⟩)
  | cons x xs' ih =>
    intro u ys v a b h
    cases u with
    | nil =>
      rw [List.nil_append, List.cons_append] at h
      injection h with hx htl
      subst hx
      cases xs' with
      | nil =>
        rw [List.nil_append] at htl
        exact Or.inr (Or.inl ⟨⟨[], by simp⟩, ⟨v, htl⟩⟩)
      | cons y xs'' =>
        rw [List.cons_append] at htl
        injection htl with hy _
        subst hy
        exact Or.inl ⟨[], xs'', by simp⟩
    | cons c u' =>
      rw [List.cons_append, List.cons_append] at h
      injection h with hxc htl
      subst hxc
      rcases ih u' ys v a b htl with ⟨w, z, hw⟩ | ⟨⟨w, hw⟩, hz⟩ | hr
      · exact Or.inl ⟨x :: w, z, by rw [List.cons_append, hw]⟩
      · exact Or.inr (Or.inl ⟨⟨x :: w, by rw [List.cons_append, hw]⟩, hz⟩)
      · exact Or.inr (Or.inr hr)

theorem adjacent_gap_le_same_run (th : ℚ) :
    ∀ (rs : List (List TimedImage)), (∀ r ∈ rs, r ≠ []) → rs.Chain' (boundGap th) →
    ∀ (u v : List TimedImage) (a b : TimedImage), rs.flatten = u ++ a :: b :: v →
    gapLE th a b → ∃ r ∈ rs, ∃ w z, r = w ++ a :: b :: z := by
  intro rs
  induction rs with
  | nil =>
    intro _ _ u v a b hj _
    rw [List.flatten_nil] at hj
    exact absurd hj (by cases u <;> simp)
  | cons r0 rs' ih =>
    intro hne hchain u v a b hj hgap
    rw [List.flatten_cons] at hj
    rcases append_adjacent r0 u rs'.flatten v a b hj with ⟨w, z, hr0⟩ | ⟨⟨w, hw⟩, ⟨z, hz⟩⟩ | ⟨w, z, hys⟩
    · exact ⟨r0, List.mem_cons_self r0 rs', w, z, hr0⟩
    · exfalso
      have hrs' : rs' ≠ [] := by
        intro hnil
        rw [hnil, List.flatten_nil] at hz
        exact List.cons_ne_nil b z hz.symm
      obtain ⟨r1, rs'', hr1⟩ := List.exists_cons_of_ne_nil hrs'
      subst hr1
      have hr1ne : r1 ≠ [] := hne r1 (List.mem_cons_of_mem _ (List.mem_cons_self _ _))
      obtain ⟨c, t1, hc⟩ := List.exists_cons_of_ne_nil hr1ne
      subst hc
      rw [List.flatten_cons, List.cons_append] at hz
      injection hz with hcb _
      have hbg : boundGap th r0 (c :: t1) := (List.chain'_cons.1 hchain).1
      have hlast : r0.getLast? = some a := by rw [hw]; exact List.getLast?_concat w
      have ha : a ∈ r0.getLast? := by rw [hlast]; rfl
      have hcmem : c ∈ (c :: t1).head? := by rw [List.head?_cons]; rfl
      have hlt := hbg a ha c hcmem
      rw [hcb] at hlt
      exact not_le.2 hlt hgap
    · obtain ⟨r, hr, w2, z2, hshape⟩ :=
        ih (fun r hr => hne r (List.mem_cons_of_mem _ hr)) hchain.tail w z a b hys hgap
      exact ⟨r, List.mem_cons_of_mem _ hr, w2, z2, hshape⟩

theorem adjacent_in_run :
    ∀ (rs : List (List TimedImage)) (u v : List TimedImage) (a b : TimedImage),
    (rs.flatten.map Prod.fst).Nodup → rs.flatten = u ++ a :: b :: v →
    ∀ r ∈ rs, a ∈ r → b ∈ r → ∃ w z, r = w ++ a :: b :: z := by
  intro rs
  induction rs with
  | nil => intro u v a b _ _ r hr; exact absurd hr (List.not_mem_nil r)
  | cons r0 rs' ih =>
    intro u v a b hnd hj r hr ha hb
    rw [List.flatten_cons] at hj hnd
    rw [List.map_append, List.nodup_append] at hnd
    obtain ⟨hnd1, hnd2, hdisj⟩ := hnd
    have hnoBoth : ∀ p : TimedImage, p ∈ r0 → p ∈ rs'.flatten → False := by
      intro p hp hq
      exact hdisj (List.mem_map_of_mem Prod.fst hp) (List.mem_map_of_mem Prod.fst hq)
    have hmemflat : ∀ (x : TimedImage) (r' : List TimedImage), r' ∈ rs' → x ∈ r' →
        x ∈ rs'.flatten := fun x r' hr' hx => List.mem_flatten.2 ⟨r', hr', hx⟩
    rcases List.mem_cons.1 hr with heq | hr2
    · subst heq
      rcases append_adjacent r u rs'.flatten v a b hj with ⟨w, z, h0⟩ | ⟨⟨w, hw⟩, ⟨z, hz⟩⟩ | ⟨w, z, hys⟩
      · exact ⟨w, z, h0⟩
      · exact absurd (by rw [hz]; exact List.mem_cons_self b z : b ∈ rs'.flatten)
          (fun hq => hnoBoth b hb hq)
      · exact absurd (by rw [hys]; simp : a ∈ rs'.flatten) (fun hq => hnoBoth a ha hq)
    · rcases append_adjacent r0 u rs'.flatten v a b hj with ⟨w, z, h0⟩ | ⟨⟨w, hw⟩, ⟨z, hz⟩⟩ | ⟨w, z, hys⟩
      · exact absurd (hmemflat a r hr2 ha) (fun hq => hnoBoth a (by rw [h0]; simp) hq)
      · exact absurd (hmemflat a r hr2 ha) (fun hq => hnoBoth a (by rw [hw]; simp) hq)
      · exact ih w z a b hnd2 hys r hr2 ha hb

theorem runs_pairwise_disjoint :
    ∀ (rs : List (List TimedImage)), (rs.flatten.map Prod.fst).Nodup →
    rs.Pairwise (fun r1 r2 => ∀ x ∈ r1.map Prod.fst, x ∉ r2.map Prod.fst) := by
  intro rs
  induction rs with
  | nil => intro _; exact List.Pairwise.nil
  | cons r0 rs' ih =>
    intro hnd
    rw [List.flatten_cons, List.map_append, List.nodup_append] at hnd
    obtain ⟨_, hnd2, hdisj⟩ := hnd
    refine List.Pairwise.cons ?_ (ih hnd2)
    intro r' hr' x hx hx'
    have hxf : x ∈ rs'.flatten.map Prod.fst := by
      rcases List.mem_map.1 hx' with ⟨q, hq, hqx⟩
      exact hqx ▸ List.mem_map_of_mem Prod.fst (List.mem_flatten.2 ⟨r', hr', hq⟩)
    exact hdisj hx hxf

theorem headD_mem {α : Type} (l : List α) (d : α) (h : l ≠ []) : l.headD d ∈ l := by
  cases l with
  | nil => exact absurd rfl h
  | cons a t => exact List.mem_cons_self a t

theorem runs_sorted_heads (d : TimedImage) :
    ∀ (rs : List (List TimedImage)), rs.flatten.Sorted tsLE → (∀ r ∈ rs, r ≠ []) →
    rs.Pairwise (fun r1 r2 => (r1.headD d).2 ≤ (r2.headD d).2) := by
  intro rs
  induction rs with
  | nil => intro _ _; exact List.Pairwise.nil
  | cons r0 rs' ih =>
    intro hs hne
    rw [List.flatten_cons] at hs
    have hs' : List.Pairwise tsLE (r0 ++ rs'.flatten) := hs
    rw [List.pairwise_append] at hs'
    obtain ⟨h1, h2, hcross⟩ := hs'
    refine List.Pairwise.cons ?_ (ih h2 (fun r hr => hne r (List.mem_cons_of_mem _ hr)))
    intro r' hr'
    have hh0 : r0.headD d ∈ r0 := headD_mem r0 d (hne r0 (List.mem_cons_self _ _))
    have hh' : r'.headD d ∈ rs'.flatten :=
      List.mem_flatten.2 ⟨r', hr', headD_mem r' d (hne r' (List.mem_cons_of_mem _ hr'))⟩
    exact hcross _ hh0 _ hh'

theorem detectGo_eq_filter (th : ℚ) :
    ∀ (l cur : List TimedImage), cur ≠ [] →
    detectGo th cur l = (runsGo th cur l).filter (fun r => decide (2 ≤ r.length)) := by
  intro l
  induction l with
  | nil =>
    intro cur _
    show (if 2 ≤ cur.length then [cur] else []) = _
    by_cases h2 : 2 ≤ cur.length <;> simp [h2, runsGo, List.filter]
  | cons x rest ih =>
    intro cur hc
    unfold detectGo runsGo
    rw [if_neg hc]
    by_cases hcond : x.2 - (cur.getLastD x).2 ≤ th
    · rw [if_pos hcond, if_pos hcond]
      exact ih (cur ++ [x]) (by simp)
    · rw [if_neg hcond, if_neg hcond, List.filter_cons, ih [x] (List.cons_ne_nil x [])]
      by_cases h2 : 2 ≤ cur.length <;> simp [h2]

theorem detectGo_nil_start (th : ℚ) (l : List TimedImage) :
    detectGo th [] l = (match l with
      | [] => []
      | x :: rest => (runsGo th [x] rest).filter (fun r => decide (2 ≤ r.length))) := by
  cases l with
  | nil => rfl
  | cons x rest =>
    show detectGo th [] (x :: rest) = _
    unfold detectGo
    rw [if_pos rfl]
    exact detectGo_eq_filter th rest [x] (List.cons_ne_nil x [])

theorem detectGo_min_len (th : ℚ) :
    ∀ (l cur : List TimedImage), ∀ r ∈ detectGo th cur l, 2 ≤ r.length := by
  intro l
  induction l with
  | nil =>
    intro cur r hr
    unfold detectGo at hr
    split at hr
    · rename_i h2
      rw [List.mem_singleton] at hr
      exact hr ▸ h2
    · exact absurd hr (List.not_mem_nil r)
  | cons x rest ih =>
    intro cur r hr
    unfold detectGo at hr
    split at hr
    · exact ih [x] r hr
    · split at hr
      · exact ih (cur ++ [x]) r hr
      · rcases List.mem_append.1 hr with h | h
        · split at h
          · rename_i h2
            rw [List.mem_singleton] at h
            exact h ▸ h2
          · exact absurd h (List.not_mem_nil r)
        · exact ih [x] r h

/-! Claims C5, C8, C10. -/

def dummyTI : TimedImage := (⟨"", ""⟩, 0)

def p1 : ImagePath := ⟨"photos", "a.jpg"⟩

def p2 : ImagePath := ⟨"photos", "b.jpg"⟩

/-- C8: every sequence produced by `detect_sequences` has at least two
frames — a singleton run is discarded and never materialized, both when
a run is closed by an over-threshold gap and when the final run is
closed at the end of the scan. -/
theorem detect_sequences_min_two_frames (th : ℚ) (l : List TimedImage) :
    ∀ s ∈ detect_sequences th l, 2 ≤ s.frames.length := by
  intro s hs
  rw [detect_sequences] at hs
  rcases List.mem_map.1 hs with ⟨r, hr, rfl⟩
  have h2 := detectGo_min_len th (sortPairs l) [] r hr
  show 2 ≤ (r.map Prod.fst).length
  rw [List.length_map]
  exact h2

theorem sortPairs_eval : sortPairs [(p1, (0 : ℚ)), (p2, 1)] = [(p1, 0), (p2, 1)] := by
  norm_num [sortPairs, List.insertionSort, List.orderedInsert, tsLE]

theorem detect_eval :
    detect_sequences 2 [(p1, (0 : ℚ)), (p2, 1)] = [create_sequence [(p1, 0), (p2, 1)]] := by
  rw [detect_sequences, sortPairs_eval, detectGo_nil_start]
  norm_num [runsGo, List.getLastD, List.filter]

/-- C8 witness: a two-frame burst within threshold yields one sequence
with two frames. -/
theorem detect_sequences_min_two_frames_witness :
    create_sequence [(p1, 0), (p2, 1)] ∈ detect_sequences 2 [(p1, (0 : ℚ)), (p2, 1)] ∧
    2 ≤ (create_sequence [(p1, (0 : ℚ)), (p2, 1)]).frames.length :=
  ⟨by rw [detect_eval]; exact List.mem_singleton_self _,
   detect_sequences_min_two_frames 2 [(p1, 0), (p2, 1)] (create_sequence [(p1, 0), (p2, 1)])
     (by rw [detect_eval]; exact List.mem_singleton_self _)⟩

theorem map_snd_headD (r : List TimedImage) (d : TimedImage) (h : r ≠ []) :
    (r.map Prod.snd).headD 0 = (r.headD d).2 := by
  cases r with
  | nil => exact absurd rfl h
  | cons a t => rfl

/-- C10: on an input whose image paths are pairwise distinct (as
delivered by the `timestamps` dict of `read_timestamps_batch`), the
sequences returned by `detect_sequences` are pairwise disjoint on
frames, appear in ascending order of their first frame's timestamp,
and carry `frames`/`timestamps` lists of equal length. -/
theorem detect_sequences_structural_invariants (th : ℚ) (l : List TimedImage)
    (hnd : (l.map Prod.fst).Nodup) :
    (detect_sequences th l).Pairwise (fun s1 s2 => ∀ x ∈ s1.frames, x ∉ s2.frames) ∧
    (detect_sequences th l).Pairwise
      (fun s1 s2 => s1.timestamps.headD 0 ≤ s2.timestamps.headD 0) ∧
    (∀ s ∈ detect_sequences th l, s.frames.length = s.timestamps.length) := by
  have hlen : ∀ s ∈ detect_sequences th l, s.frames.length = s.timestamps.length := by
    intro s hs
    rcases List.mem_map.1 hs with ⟨r, _, rfl⟩
    show (r.map Prod.fst).length = (r.map Prod.snd).length
    rw [List.length_map, List.length_map]
  have hboth : (detect_sequences th l).Pairwise
      (fun s1 s2 => ∀ x ∈ s1.frames, x ∉ s2.frames) ∧
      (detect_sequences th l).Pairwise
        (fun s1 s2 => s1.timestamps.headD 0 ≤ s2.timestamps.headD 0) := by
    cases hs0 : sortPairs l with
    | nil =>
      have hdet : detect_sequences th l = [] := by
        rw [detect_sequences, hs0, detectGo_nil_start]
        rfl
      rw [hdet]
      exact ⟨List.Pairwise.nil, List.Pairwise.nil⟩
    | cons x rest =>
      have hdet : detect_sequences th l =
          ((runsGo th [x] rest).filter (fun r => decide (2 ≤ r.length))).map
            create_sequence := by
        rw [detect_sequences, hs0, detectGo_nil_start]
      have hflatS : (runsGo th [x] rest).flatten = sortPairs l := by
        rw [runsGo_join, hs0]
        rfl
      have hperm : List.Perm (sortPairs l) l := List.perm_insertionSort tsLE l
      have hndflat : ((runsGo th [x] rest).flatten.map Prod.fst).Nodup := by
        rw [hflatS]
        exact ((hperm.map Prod.fst).nodup_iff).2 hnd
      have hne := runsGo_ne_nil th rest [x] (List.cons_ne_nil x [])
      have hsorted : (runsGo th [x] rest).flatten.Sorted tsLE := by
        rw [hflatS]
        exact List.sorted_insertionSort tsLE l
      constructor
      · rw [hdet, List.pairwise_map]
        exact List.Pairwise.sublist (List.filter_sublist _)
          (runs_pairwise_disjoint _ hndflat)
      · rw [hdet, List.pairwise_map]
        have hheads : (List.filter (fun r => decide (2 ≤ r.length))
            (runsGo th [x] rest)).Pairwise
            (fun r1 r2 => (r1.headD dummyTI).2 ≤ (r2.headD dummyTI).2) :=
          List.Pairwise.sublist (List.filter_sublist _)
            (runs_sorted_heads dummyTI _ hsorted hne)
        refine hheads.imp_of_mem ?_
        intro r1 r2 h1 h2 hle
        have h1ne : r1 ≠ [] := by
          have hl := (List.mem_filter.1 h1).2
          simp only [decide_eq_true_eq] at hl
          intro hnil
          rw [hnil] at hl
          simp at hl
        have h2ne : r2 ≠ [] := by
          have hl := (List.mem_filter.1 h2).2
          simp only [decide_eq_true_eq] at hl
          intro hnil
          rw [hnil] at hl
          simp at hl
        show (r1.map Prod.snd).headD 0 ≤ (r2.map Prod.snd).headD 0
        rw [map_snd_headD r1 dummyTI h1ne, map_snd_headD r2 dummyTI h2ne]
        exact hle
  exact ⟨hboth.1, hboth.2, hlen⟩

/-- C10 witness: the invariants theorem applied to a concrete
distinct-path input. -/
theorem detect_sequences_structural_invariants_witness :
    (([(p1, (0 : ℚ)), (p2, 1)].map Prod.fst).Nodup) ∧
    ((detect_sequences 2 [(p1, (0 : ℚ)), (p2, 1)]).Pairwise
      (fun s1 s2 => ∀ x ∈ s1.frames, x ∉ s2.frames) ∧
     (detect_sequences 2 [(p1, (0 : ℚ)), (p2, 1)]).Pairwise
       (fun s1 s2 => s1.timestamps.headD 0 ≤ s2.timestamps.headD 0) ∧
     (∀ s ∈ detect_sequences 2 [(p1, (0 : ℚ)), (p2, 1)],
       s.frames.length = s.timestamps.length)) :=
  ⟨by decide, detect_sequences_structural_invariants 2 [(p1, 0), (p2, 1)] (by decide)⟩

/-- C5: after sorting ascending by capture instant, two adjacent items
whose gap is at most `threshold_seconds` always end up together in a
detected sequence (the boundary gap equal to the threshold included),
and two adjacent items whose gap exceeds the threshold never share a
sequence.  Path distinctness reflects the `timestamps` dict input. -/
theorem detect_sequences_threshold_boundary (th : ℚ) (l u v : List TimedImage)
    (a b : TimedImage) (hnd : (l.map Prod.fst).Nodup)
    (hsplit : sortPairs l = u ++ a :: b :: v) :
    (b.2 - a.2 ≤ th →
      ∃ s ∈ detect_sequences th l, a.1 ∈ s.frames ∧ b.1 ∈ s.frames) ∧
    (th < b.2 - a.2 →
      ∀ s ∈ detect_sequences th l, ¬(a.1 ∈ s.frames ∧ b.1 ∈ s.frames)) := by
  have hs0ne : sortPairs l ≠ [] := by rw [hsplit]; cases u <;> simp
  obtain ⟨x, rest, hs0⟩ := List.exists_cons_of_ne_nil hs0ne
  have hdet : detect_sequences th l =
      ((runsGo th [x] rest).filter (fun r => decide (2 ≤ r.length))).map create_sequence := by
    rw [detect_sequences, hs0, detectGo_nil_start]
  have hflat : (runsGo th [x] rest).flatten = u ++ a :: b :: v := by
    rw [runsGo_join]
    show x :: rest = _
    rw [← hs0, hsplit]
  have hne := runsGo_ne_nil th rest [x] (List.cons_ne_nil x [])
  have hperm : List.Perm (sortPairs l) l := List.perm_insertionSort tsLE l
  have hndflat : ((runsGo th [x] rest).flatten.map Prod.fst).Nodup := by
    rw [runsGo_join]
    show ((x :: rest).map Prod.fst).Nodup
    rw [← hs0]
    exact ((hperm.map Prod.fst).nodup_iff).2 hnd
  constructor
  · intro hgap
    obtain ⟨r, hr, w, z, hshape⟩ := adjacent_gap_le_same_run th (runsGo th [x] rest) hne
      (runsGo_boundGap th rest [x] (List.cons_ne_nil x [])) u v a b hflat hgap
    have hlen2 : 2 ≤ r.length := by
      rw [hshape]
      simp [List.length_append]
      omega
    refine ⟨create_sequence r, ?_, ?_, ?_⟩
    · rw [hdet]
      exact List.mem_map_of_mem create_sequence
        (List.mem_filter.2 ⟨hr, by simpa using hlen2⟩)
    · show a.1 ∈ r.map Prod.fst
      exact List.mem_map_of_mem Prod.fst (by rw [hshape]; simp)
    · show b.1 ∈ r.map Prod.fst
      exact List.mem_map_of_mem Prod.fst (by rw [hshape]; simp)
  · intro hgap s hs hab
    obtain ⟨haf, hbf⟩ := hab
    rw [hdet] at hs
    rcases List.mem_map.1 hs with ⟨r, hrf, rfl⟩
    have hr : r ∈ runsGo th [x] rest := (List.mem_filter.1 hrf).1
    have haf2 : a.1 ∈ r.map Prod.fst := haf
    have hbf2 : b.1 ∈ r.map Prod.fst := hbf
    obtain ⟨pa, hpa, hpa1⟩ := List.mem_map.1 haf2
    obtain ⟨pb, hpb, hpb1⟩ := List.mem_map.1 hbf2
    have hpaflat : pa ∈ (runsGo th [x] rest).flatten := List.mem_flatten.2 ⟨r, hr, hpa⟩
    have hpbflat : pb ∈ (runsGo th [x] rest).flatten := List.mem_flatten.2 ⟨r, hr, hpb⟩
    have haflat : a ∈ (runsGo th [x] rest).flatten := by rw [hflat]; simp
    have hbflat : b ∈ (runsGo th [x] rest).flatten := by rw [hflat]; simp
    have hpaa : pa = a := List.inj_on_of_nodup_map hndflat hpaflat haflat hpa1
    have hpbb : pb = b := List.inj_on_of_nodup_map hndflat hpbflat hbflat hpb1
    obtain ⟨w, z, hshape⟩ := adjacent_in_run (runsGo th [x] rest) u v a b hndflat hflat r hr
      (hpaa ▸ hpa) (hpbb ▸ hpb)
    have hchain : chainGap th r := runsGo_chainGap th rest [x] (List.cons_ne_nil x [])
      (List.chain'_singleton x) r hr
    rw [hshape] at hchain
    unfold chainGap at hchain
    rw [List.chain'_append] at hchain
    have hab2 := (List.chain'_cons.1 hchain.2.1).1
    exact not_le.2 hgap hab2

/-- C5 witness: two frames one second apart under a two-second
threshold land in the same sequence. -/
theorem detect_sequences_threshold_boundary_witness :
    ((([(p1, (0 : ℚ)), (p2, 1)].map Prod.fst).Nodup) ∧
      sortPairs [(p1, (0 : ℚ)), (p2, 1)] = [] ++ (p1, (0 : ℚ)) :: (p2, (1 : ℚ)) :: []) ∧
    ((p2, (1 : ℚ)).2 - (p1, (0 : ℚ)).2 ≤ 2) ∧
    (∃ s ∈ detect_sequences 2 [(p1, (0 : ℚ)), (p2, 1)],
      (p1, (0 : ℚ)).1 ∈ s.frames ∧ (p2, (1 : ℚ)).1 ∈ s.frames) :=
  ⟨⟨by decide, by rw [sortPairs_eval]; rfl⟩, by norm_num,
   (detect_sequences_threshold_boundary 2 [(p1, 0), (p2, 1)] [] [] (p1, 0) (p2, 1)
     (by decide) (by rw [sortPairs_eval]; rfl)).1 (by norm_num)⟩

/-! Model of `SharpnessScorer.score_sequence`.  `calculate_sharpness`
(the Laplacian-variance of the decoded frame, an external pixel
operation returning 0.0 on unreadable frames) is abstracted as a
function from frames to scores. -/

/-- Python's `max` on a list of floats (value semantics; only ever
called on nonempty lists, the `[]` case is a dummy). -/
def pyMax : List ℚ → ℚ
  | [] => 0
  | x :: xs => xs.foldl max x

/-- `SharpnessScorer.score_sequence`: score every frame in order, store
`sharpness_scores`, and when the score list is nonempty set
`best_frame_idx` to `scores.index(max(scores))`, the first position
attaining the maximum. -/
def score_sequence (sharp : ImagePath → ℚ) (s : Sequence) : Sequence :=
  if s.frames.map sharp = [] then { s with sharpness_scores := s.frames.map sharp }
  else
    { s with
      sharpness_scores := s.frames.map sharp
      best_frame_idx := (s.frames.map sharp).indexOf (pyMax (s.frames.map sharp)) }

theorem le_foldl_max : ∀ (l : List ℚ) (a : ℚ), a ≤ l.foldl max a := by
  intro l
  induction l with
  | nil => intro a; exact le_refl a
  | cons x xs ih =>
    intro a
    exact le_trans (le_max_left a x) (ih (max a x))

theorem foldl_max_mem : ∀ (l : List ℚ) (a : ℚ), l.foldl max a = a ∨ l.foldl max a ∈ l := by
  intro l
  induction l with
  | nil => intro a; exact Or.inl rfl
  | cons x xs ih =>
    intro a
    rw [List.foldl_cons]
    rcases ih (max a x) with h | h
    · rcases max_choice a x with hm | hm
      · exact Or.inl (by rw [h, hm])
      · exact Or.inr (by rw [h, hm]; exact List.mem_cons_self x xs)
    · exact Or.inr (List.mem_cons_of_mem x h)

theorem mem_le_foldl_max : ∀ (l : List ℚ) (a y : ℚ), y ∈ l → y ≤ l.foldl max a := by
  intro l
  induction l with
  | nil => intro a y h; exact absurd h (List.not_mem_nil y)
  | cons x xs ih =>
    intro a y h
    rw [List.foldl_cons]
    rcases List.mem_cons.1 h with heq | h2
    · subst heq
      exact le_trans (le_max_right a y) (le_foldl_max xs (max a y))
    · exact ih (max a x) y h2

theorem pyMax_mem (l : List ℚ) (h : l ≠ []) : pyMax l ∈ l := by
  cases l with
  | nil => exact absurd rfl h
  | cons x xs =>
    show xs.foldl max x ∈ x :: xs
    rcases foldl_max_mem xs x with h2 | h2
    · rw [h2]; exact List.mem_cons_self x xs
    · exact List.mem_cons_of_mem x h2

theorem le_pyMax (l : List ℚ) (y : ℚ) (h : y ∈ l) : y ≤ pyMax l := by
  cases l with
  | nil => exact absurd h (List.not_mem_nil y)
  | cons x xs =>
    show y ≤ xs.foldl max x
    rcases List.mem_cons.1 h with heq | h2
    · subst heq
      exact le_foldl_max xs y
    · exact mem_le_foldl_max xs x y h2

theorem get_lt_indexOf_ne : ∀ (l : List ℚ) (a : ℚ) (j : Nat) (hj : j < l.length),
    j < l.indexOf a → l.get ⟨j, hj⟩ ≠ a := by
  intro l
  induction l with
  | nil => intro a j hj; intro h; exact absurd hj (by simp)
  | cons x xs ih =>
    intro a j hj hlt
    rw [List.indexOf_cons] at hlt
    cases hbeq : (x == a) with
    | true =>
      rw [hbeq, cond_true] at hlt
      exact absurd hlt (by omega)
    | false =>
      rw [hbeq, cond_false] at hlt
      cases j with
      | zero =>
        show x ≠ a
        exact fun h => by rw [h] at hbeq; simp at hbeq
      | succ j2 =>
        have hj2 : j2 < xs.length := by
          rw [List.length_cons] at hj
          omega
        have hlt2 : j2 < List.indexOf a xs := by omega
        show xs.get ⟨j2, hj2⟩ ≠ a
        exact ih a j2 hj2 hlt2

theorem bestIdx_spec (scores : List ℚ) (hne : scores ≠ []) :
    ∃ h : scores.indexOf (pyMax scores) < scores.length,
      scores.get ⟨scores.indexOf (pyMax scores), h⟩ = pyMax scores ∧
      (∀ j (hj : j < scores.length), j < scores.indexOf (pyMax scores) →
        scores.get ⟨j, hj⟩ ≠ pyMax scores) ∧
      ((∀ q1 ∈ scores, ∀ q2 ∈ scores, q1 = q2) → scores.indexOf (pyMax scores) = 0) := by
  have hmem : pyMax scores ∈ scores := pyMax_mem scores hne
  have hidx : scores.indexOf (pyMax scores) < scores.length :=
    List.indexOf_lt_length.2 hmem
  refine ⟨hidx, List.indexOf_get hidx, ?_, ?_⟩
  · intro j hj hjlt
    exact get_lt_indexOf_ne scores (pyMax scores) j hj hjlt
  · intro hall
    cases hc : scores with
    | nil => exact absurd hc hne
    | cons c t =>
      have hcm : c ∈ scores := by rw [hc]; exact List.mem_cons_self c t
      have hmax : pyMax scores = c := hall (pyMax scores) hmem c hcm
      rw [hc] at hmax
      rw [hmax]
      simp [List.indexOf_cons]

/-- C9: for a sequence with a nonempty frames list, `score_sequence`
sets `best_frame_idx` to the least index at which `sharpness_scores`
attains its maximum value; in particular, when all scores are equal the
best index is 0, the earliest-in-time frame. -/
theorem score_sequence_best_frame (sharp : ImagePath → ℚ) (s : Sequence)
    (hne : s.frames ≠ []) :
    ∃ h : (score_sequence sharp s).best_frame_idx <
        (score_sequence sharp s).sharpness_scores.length,
      (score_sequence sharp s).sharpness_scores.get
          ⟨(score_sequence sharp s).best_frame_idx, h⟩ =
        pyMax (score_sequence sharp s).sharpness_scores ∧
      (∀ j (hj : j < (score_sequence sharp s).sharpness_scores.length),
        j < (score_sequence sharp s).best_frame_idx →
        (score_sequence sharp s).sharpness_scores.get ⟨j, hj⟩ ≠
          pyMax (score_sequence sharp s).sharpness_scores) ∧
      ((∀ q1 ∈ (score_sequence sharp s).sharpness_scores,
        ∀ q2 ∈ (score_sequence sharp s).sharpness_scores, q1 = q2) →
        (score_sequence sharp s).best_frame_idx = 0) := by
  have hscne : s.frames.map sharp ≠ [] := by
    intro h
    exact hne (List.map_eq_nil_iff.1 h)
  have h1 : (score_sequence sharp s).sharpness_scores = s.frames.map sharp := by
    unfold score_sequence
    split <;> rfl
  have h2 : (score_sequence sharp s).best_frame_idx =
      (s.frames.map sharp).indexOf (pyMax (s.frames.map sharp)) := by
    unfold score_sequence
    rw [if_neg hscne]
  rw [h1, h2]
  exact bestIdx_spec (s.frames.map sharp) hscne

def s9 : Sequence :=
  { frames := [p1, p2], timestamps := [], sharpness_scores := [], best_frame_idx := 0 }

def sharp9 : ImagePath → ℚ := fun _ => 3

/-- C9 witness: the theorem applied to a two-frame sequence under a
constant sharpness function. -/
theorem score_sequence_best_frame_witness :
    s9.frames ≠ [] ∧
    ∃ h : (score_sequence sharp9 s9).best_frame_idx <
        (score_sequence sharp9 s9).sharpness_scores.length,
      (score_sequence sharp9 s9).sharpness_scores.get
          ⟨(score_sequence sharp9 s9).best_frame_idx, h⟩ =
        pyMax (score_sequence sharp9 s9).sharpness_scores ∧
      (∀ j (hj : j < (score_sequence sharp9 s9).sharpness_scores.length),
        j < (score_sequence sharp9 s9).best_frame_idx →
        (score_sequence sharp9 s9).sharpness_scores.get ⟨j, hj⟩ ≠
          pyMax (score_sequence sharp9 s9).sharpness_scores) ∧
      ((∀ q1 ∈ (score_sequence sharp9 s9).sharpness_scores,
        ∀ q2 ∈ (score_sequence sharp9 s9).sharpness_scores, q1 = q2) →
        (score_sequence sharp9 s9).best_frame_idx = 0) :=
  ⟨by decide, score_sequence_best_frame sharp9 s9 (by decide)⟩

/-! Model of `generate_sequence_id`.  A Python `datetime` is a record
of calendar fields; `strftime('%Y-%m-%d_%H-%M-%S')` renders the
zero-padded fields and drops the sub-second `microsecond` field (which
`read_timestamps_batch` populates from `SubSecTimeOriginal`). -/

structure PyDateTime where
  year : Nat
  month : Nat
  day : Nat
  hour : Nat
  minute : Nat
  second : Nat
  microsecond : Nat
deriving DecidableEq

/-- Chronological (lexicographic, microsecond-inclusive) order of
Python `datetime` values. -/
def dtLt (a b : PyDateTime) : Prop :=
  a.year < b.year ∨ (a.year = b.year ∧
    (a.month < b.month ∨ (a.month = b.month ∧
      (a.day < b.day ∨ (a.day = b.day ∧
        (a.hour < b.hour ∨ (a.hour = b.hour ∧
          (a.minute < b.minute ∨ (a.minute = b.minute ∧
            (a.second < b.second ∨ (a.second = b.second ∧
              a.microsecond < b.microsecond)))))))))))

instance (a b : PyDateTime) : Decidable (dtLt a b) := by
  unfold dtLt
  infer_instance

/-- Strict chronological order at the whole-second resolution the
identifier renders. -/
def secLt (a b : PyDateTime) : Prop :=
  a.year < b.year ∨ (a.year = b.year ∧
    (a.month < b.month ∨ (a.month = b.month ∧
      (a.day < b.day ∨ (a.day = b.day ∧
        (a.hour < b.hour ∨ (a.hour = b.hour ∧
          (a.minute < b.minute ∨ (a.minute = b.minute ∧
            a.second < b.second)))))))))

instance (a b : PyDateTime) : Decidable (secLt a b) := by
  unfold secLt
  infer_instance

/-- Equality of all fields the identifier renders (whole seconds). -/
def secEq (a b : PyDateTime) : Prop :=
  a.year = b.year ∧ a.month = b.month ∧ a.day = b.day ∧
  a.hour = b.hour ∧ a.minute = b.minute ∧ a.second = b.second

instance (a b : PyDateTime) : Decidable (secEq a b) := by
  unfold secEq
  infer_instance

/-- Calendar validity bounds, as guaranteed by `datetime` (4-digit
year, 2-digit remaining fields), sufficient for fixed-width
zero-padded rendering. -/
def dtValid (t : PyDateTime) : Prop :=
  t.year < 10000 ∧ t.month < 100 ∧ t.day < 100 ∧
  t.hour < 100 ∧ t.minute < 100 ∧ t.second < 100

instance (t : PyDateTime) : Decidable (dtValid t) := by
  unfold dtValid
  infer_instance

/-- Two-digit zero-padded rendering (`%m`, `%d`, `%H`, `%M`, `%S`). -/
def pad2 (n : Nat) : List Char := [decChar (n / 10), decChar n]

/-- Four-digit zero-padded rendering (`%Y`). -/
def pad4 (n : Nat) : List Char := pad2 (n / 100) ++ pad2 n

def seqPre : List Char := ['S', 'E', 'Q', '_']

/-- Character content of `f"SEQ_{ts.strftime('%Y-%m-%d_%H-%M-%S')}"`. -/
def idChars (t : PyDateTime) : List Char :=
  seqPre ++ (pad4 t.year ++ '-' :: (pad2 t.month ++ '-' :: (pad2 t.day ++
    '_' :: (pad2 t.hour ++ '-' :: (pad2 t.minute ++ '-' :: pad2 t.second)))))

/-- `generate_sequence_id` of `sequence_stacking.py`. -/
def generate_sequence_id (t : PyDateTime) : String := String.mk (idChars t)

theorem lex_append_same (p : List Char) {l1 l2 : List Char}
    (h : List.Lex (fun c1 c2 => c1 < c2) l1 l2) :
    List.Lex (fun c1 c2 => c1 < c2) (p ++ l1) (p ++ l2) := by
  induction p with
  | nil => exact h
  | cons c p' ih => exact List.Lex.cons ih

theorem decChar_lt_decChar : ∀ a, a < 10 → ∀ b, b < 10 → a < b →
    decChar a < decChar b := by decide

theorem decChar_mod (n : Nat) : decChar (n % 10) = decChar n := by
  unfold decChar
  rw [Nat.mod_mod_of_dvd n (by norm_num : (10 : Nat) ∣ 10)]

theorem pad2_mod (n : Nat) : pad2 n = pad2 (n % 100) := by
  unfold pad2 decChar
  have h1 : n % 100 % 10 = n % 10 := Nat.mod_mod_of_dvd n (by norm_num)
  have h2 : n % 100 / 10 % 10 = n / 10 % 10 := by omega
  rw [h1, h2]

theorem pad2_lt_ext {a b : Nat} (hab : a < b) (hb : b < 100) (r1 r2 : List Char) :
    List.Lex (fun c1 c2 => c1 < c2) (pad2 a ++ r1) (pad2 b ++ r2) := by
  have ha : a < 100 := lt_trans hab hb
  have ha10 : a / 10 < 10 := by omega
  have hb10 : b / 10 < 10 := by omega
  rcases Nat.lt_or_ge (a / 10) (b / 10) with h | h
  · exact List.Lex.rel (decChar_lt_decChar (a / 10) ha10 (b / 10) hb10 h)
  · have hd : a / 10 = b / 10 := le_antisymm (Nat.div_le_div_right (le_of_lt hab)) h
    have hm : a % 10 < b % 10 := by omega
    have hchar : decChar a < decChar b := by
      rw [← decChar_mod a, ← decChar_mod b]
      exact decChar_lt_decChar (a % 10) (by omega) (b % 10) (by omega) hm
    unfold pad2
    rw [hd]
    exact List.Lex.cons (List.Lex.rel hchar)

theorem pad4_lt_ext {a b : Nat} (hab : a < b) (hb : b < 10000) (r1 r2 : List Char) :
    List.Lex (fun c1 c2 => c1 < c2) (pad4 a ++ r1) (pad4 b ++ r2) := by
  have ha : a < 10000 := lt_trans hab hb
  unfold pad4
  rw [List.append_assoc, List.append_assoc]
  rcases Nat.lt_or_ge (a / 100) (b / 100) with h | h
  · exact pad2_lt_ext h (by omega) _ _
  · have hd : a / 100 = b / 100 := le_antisymm (Nat.div_le_div_right (le_of_lt hab)) h
    rw [hd]
    apply lex_append_same
    rw [pad2_mod a, pad2_mod b]
    exact pad2_lt_ext (by omega) (by omega) _ _

theorem idChars_lt (t1 t2 : PyDateTime) (h1 : dtValid t1) (h2 : dtValid t2)
    (h : secLt t1 t2) :
    List.Lex (fun c1 c2 => c1 < c2) (idChars t1) (idChars t2) := by
  obtain ⟨hy1, hmo1, hd1, hh1, hmi1, hs1⟩ := h1
  obtain ⟨hy2, hmo2, hd2, hh2, hmi2, hs2⟩ := h2
  unfold idChars
  apply lex_append_same seqPre
  rcases h with hy | ⟨hye, h⟩
  · exact pad4_lt_ext hy hy2 _ _
  · rw [hye]
    apply lex_append_same
    rcases h with hmo | ⟨hmoe, h⟩
    · exact List.Lex.cons (pad2_lt_ext hmo hmo2 _ _)
    · rw [hmoe]
      apply List.Lex.cons
      apply lex_append_same
      rcases h with hd | ⟨hde, h⟩
      · exact List.Lex.cons (pad2_lt_ext hd hd2 _ _)
      · rw [hde]
        apply List.Lex.cons
        apply lex_append_same
        rcases h with hh | ⟨hhe, h⟩
        · exact List.Lex.cons (pad2_lt_ext hh hh2 _ _)
        · rw [hhe]
          apply List.Lex.cons
          apply lex_append_same
          rcases h with hmi | ⟨hmie, h⟩
          · exact List.Lex.cons (pad2_lt_ext hmi hmi2 _ _)
          · rw [hmie]
            apply List.Lex.cons
            apply lex_append_same
            apply List.Lex.cons
            exact pad2_lt_ext h hs2 [] []

theorem idChars_eq (t1 t2 : PyDateTime) (h : secEq t1 t2) : idChars t1 = idChars t2 := by
  obtain ⟨h1, h2, h3, h4, h5, h6⟩ := h
  unfold idChars
  rw [h1, h2, h3, h4, h5, h6]

/-! Claim C4. -/

/-- C4, counterexample: two first-frame timestamps that differ only in
their sub-second field are chronologically distinct yet render the
very same sequence ID (`strftime` has whole-second resolution), so
sequence IDs do not reproduce the relative order of every pair of
distinct timestamps. -/
theorem sequence_id_subsecond_collision :
    dtLt ⟨2024, 12, 22, 14, 35, 26, 100000⟩ ⟨2024, 12, 22, 14, 35, 26, 200000⟩ ∧
    generate_sequence_id ⟨2024, 12, 22, 14, 35, 26, 100000⟩ =
      generate_sequence_id ⟨2024, 12, 22, 14, 35, 26, 200000⟩ ∧
    ¬generate_sequence_id ⟨2024, 12, 22, 14, 35, 26, 100000⟩ <
      generate_sequence_id ⟨2024, 12, 22, 14, 35, 26, 200000⟩ := by
  refine ⟨by decide, rfl, ?_⟩
  intro hlt
  exact lt_irrefl (generate_sequence_id ⟨2024, 12, 22, 14, 35, 26, 100000⟩) hlt

/-- C4 (amended): for valid calendar timestamps, sequence IDs are
ordered exactly like their timestamps truncated to whole seconds:
strictly increasing (as plain strings) whenever the timestamps differ
at second granularity, and identical whenever the timestamps agree on
all rendered fields.  Plain-text sorting of IDs therefore reproduces
chronological order of first frames up to, but not below, one-second
resolution (see the counterexample for sub-second collisions). -/
theorem sequence_id_order_preserving (t1 t2 : PyDateTime)
    (h1 : dtValid t1) (h2 : dtValid t2) :
    (secLt t1 t2 → generate_sequence_id t1 < generate_sequence_id t2) ∧
    (secEq t1 t2 → generate_sequence_id t1 = generate_sequence_id t2) := by
  constructor
  · intro h
    rw [String.lt_iff_toList_lt]
    exact idChars_lt t1 t2 h1 h2 h
  · intro h
    unfold generate_sequence_id
    rw [idChars_eq t1 t2 h]

/-- C4 witness: the amended theorem applied to two timestamps one
second apart. -/
theorem sequence_id_order_preserving_witness :
    dtValid ⟨2024, 12, 22, 14, 35, 26, 0⟩ ∧ dtValid ⟨2024, 12, 22, 14, 35, 27, 0⟩ ∧
    secLt ⟨2024, 12, 22, 14, 35, 26, 0⟩ ⟨2024, 12, 22, 14, 35, 27, 0⟩ ∧
    generate_sequence_id ⟨2024, 12, 22, 14, 35, 26, 0⟩ <
      generate_sequence_id ⟨2024, 12, 22, 14, 35, 27, 0⟩ :=
  ⟨by decide, by decide, by decide,
   (sequence_id_order_preserving ⟨2024, 12, 22, 14, 35, 26, 0⟩
     ⟨2024, 12, 22, 14, 35, 27, 0⟩ (by decide) (by decide)).1 (by decide)⟩
